import Mathlib

/-!
Verification development for the Oxford spellchecker core
(`oxford_checker_web.py`): a shallow embedding of the ligature
normalizer, tokenizer, word normalizer, medical-correction loader,
ignorability filter and the per-token classification pipeline of
`check_pdf`, together with theorems settling the specification claims.

Strings are modelled as `List Char`; Python's ASCII-relevant character
predicates (`isalpha`, `lower`, `\w`, whitespace) are modelled on the
ASCII range.  The external `SpellChecker` dictionary is modelled as an
abstract membership predicate `known : List Char → Bool` (its
construction in `check_pdf` only unions word sources into it).
-/

namespace OxfordSpell

/-- ASCII lowercase letter test (Python `str.islower` range a–z). -/
def isAsciiLower (c : Char) : Bool :=
  decide (97 ≤ c.toNat) && decide (c.toNat ≤ 122)

/-- ASCII uppercase letter test (A–Z). -/
def isAsciiUpper (c : Char) : Bool :=
  decide (65 ≤ c.toNat) && decide (c.toNat ≤ 90)

/-- ASCII digit test (0–9). -/
def isAsciiDigit (c : Char) : Bool :=
  decide (48 ≤ c.toNat) && decide (c.toNat ≤ 57)

/-- Python `str.isalpha` on the ASCII model: nonempty and all letters. -/
def pyIsAlpha (w : List Char) : Bool :=
  !w.isEmpty && w.all (fun c => isAsciiLower c || isAsciiUpper c)

/-- Python whitespace characters used by `str.split` / `str.strip`. -/
def pyIsSpace (c : Char) : Bool :=
  c = ' ' || c = '\t' || c = '\n' || c = '\r' || c = '\x0b' || c = '\x0c'

/-- Python `str.lower` on one character (ASCII model): shift A–Z down by 32. -/
def pyLower (c : Char) : Char :=
  if 65 ≤ c.toNat ∧ c.toNat ≤ 90 then Char.ofNat (c.toNat + 32) else c

/-- A regex `\w` word character on the lowered ASCII model. -/
def isWordChar (c : Char) : Bool :=
  isAsciiLower c || isAsciiUpper c || isAsciiDigit c || c = '_'

/-- Split a character list into the maximal runs of characters
satisfying `p`, discarding separators (shared engine for
`re.findall` of word runs and for Python `str.split`). -/
def splitRuns (p : Char → Bool) (acc : List Char) : List Char → List (List Char)
  | [] => if acc.isEmpty then [] else [acc.reverse]
  | c :: rest =>
    if p c then splitRuns p (c :: acc) rest
    else if acc.isEmpty then splitRuns p [] rest
    else acc.reverse :: splitRuns p [] rest

/-- Python's built-in whitespace `str.split()`. -/
def pySplit (t : List Char) : List (List Char) :=
  splitRuns (fun c => !pyIsSpace c) [] t

/-- Python `str.strip()`. -/
def pyStrip (t : List Char) : List Char :=
  ((t.dropWhile pyIsSpace).reverse.dropWhile pyIsSpace).reverse

/-- `re.findall(r'\b\w+\b', text.lower())`: lower the text, then take
maximal runs of word characters. -/
def pyTokenize (t : List Char) : List (List Char) :=
  splitRuns isWordChar [] (t.map pyLower)

/-- The precomposed-ligature replacement table of `normalize_ligatures`. -/
def ligatureMap : List (Char × List Char) :=
  [('ﬀ', ['f', 'f']), ('ﬁ', ['f', 'i']), ('ﬂ', ['f', 'l']),
   ('ﬃ', ['f', 'f', 'i']), ('ﬄ', ['f', 'f', 'l']),
   ('ﬅ', ['f', 't']), ('ﬆ', ['s', 't'])]

/-- `text.replace(lig, repl)` for a single-character pattern `lig`:
expand every occurrence of that character. -/
def replaceChar (lig : Char) (repl : List Char) (t : List Char) : List Char :=
  t.flatMap (fun c => if c = lig then repl else [c])

/-- `normalize_ligatures`: fold the seven single-character replacements
over the text, in table order. -/
def normalize_ligatures (t : List Char) : List Char :=
  ligatureMap.foldl (fun acc p => replaceChar p.1 p.2 acc) t

/-- The candidate suffix list of `normalize_word`, in source order. -/
def nwSuffixes : List (List Char) :=
  [['e', 'd'], ['d'], ['i', 'n', 'g'], ['e', 's'], ['s']]

/-- `word.endswith(suffix)`. -/
def endsWith (w suf : List Char) : Bool :=
  decide (suf <:+ w)

/-- `word[:-len(suffix)]`. -/
def stripSuffix (w suf : List Char) : List Char :=
  w.take (w.length - suf.length)

/-- The suffix loop of `normalize_word`: for each candidate suffix in
order, if the word ends with it and the length guard holds, strip it and
return the base when the base is in the Oxford set; otherwise keep
scanning the remaining suffixes. -/
def normalizeGo (oxford : List Char → Bool) (w : List Char) :
    List (List Char) → List Char
  | [] => w
  | suf :: rest =>
    if endsWith w suf && decide (w.length > suf.length + 2) then
      if oxford (stripSuffix w suf) then stripSuffix w suf
      else normalizeGo oxford w rest
    else normalizeGo oxford w rest

/-- `normalize_word(word, oxford_ize_words)`. -/
def normalize_word (oxford : List Char → Bool) (w : List Char) : List Char :=
  normalizeGo oxford w nwSuffixes

/-- `load_medical_corrections`: build the table line by line; a stripped
line splitting into exactly two whitespace-separated tokens maps the
lowercased first token to the lowercased second; any other token count
leaves the table unchanged. -/
def load_medical_corrections (lines : List (List Char)) :
    List Char → Option (List Char) :=
  lines.foldl
    (fun d line =>
      match pySplit (pyStrip line) with
      | [american, british] =>
        fun k => if k = american.map pyLower then some (british.map pyLower) else d k
      | _ => d)
    (fun _ => none)

/-- `is_ignorable_token(word, abbreviations)`: abbreviation, too short,
or not purely alphabetic. -/
def is_ignorable_token (abbrevs : List Char → Bool) (w : List Char) : Bool :=
  abbrevs w || decide (w.length ≤ 2) || !(pyIsAlpha w)

/-- The suffix alternatives `(ing|ed|er|ers|y)` of the double-l pattern,
in alternation order. -/
def dlSuffixes : List (List Char) :=
  [['i', 'n', 'g'], ['e', 'd'], ['e', 'r'], ['e', 'r', 's'], ['y']]

/-- Match `(ing|ed|er|ers|y)?$` against the rest of the word: the rest
must equal one alternative exactly, or be empty. -/
def dlTryEnd (rest : List Char) : Option (List Char) :=
  if rest ∈ dlSuffixes then some rest
  else if rest = [] then some [] else none

/-- Match `[a-z]*?l(ing|ed|er|ers|y)?$` lazily after the chosen vowel:
prefer taking the literal `l` as early as possible, extending the lazy
`[a-z]*?` group only when the tail cannot complete.  Returns the lazy
group and the matched optional suffix. -/
def dlAfterVowel : List Char → Option (List Char × List Char)
  | [] => none
  | c :: rest =>
    if c = 'l' then
      match dlTryEnd rest with
      | some suf => some ([], suf)
      | none =>
        match dlAfterVowel rest with
        | some (b, suf) => some ('l' :: b, suf)
        | none => none
    else if isAsciiLower c then
      match dlAfterVowel rest with
      | some (b, suf) => some (c :: b, suf)
      | none => none
    else none

/-- Vowel test for the double-l pattern. -/
def isVowel (c : Char) : Bool :=
  c = 'a' || c = 'e' || c = 'i' || c = 'o' || c = 'u'

/-- Backtracking matcher for
`^([a-z]*[aeiou][a-z]*?)l(ing|ed|er|ers|y)?$`:
the greedy leading `[a-z]*` prefers to keep consuming, so the vowel
chosen is the rightmost one from which the rest of the pattern
completes.  Returns (group 1, group 2). -/
def dlScan : List Char → Option (List Char × List Char)
  | [] => none
  | c :: rest =>
    if isAsciiLower c then
      match dlScan rest with
      | some (base, suf) => some (c :: base, suf)
      | none =>
        if isVowel c then
          match dlAfterVowel rest with
          | some (b, suf) => some (c :: b, suf)
          | none => none
        else none
    else
      if isVowel c then
        match dlAfterVowel rest with
        | some (b, suf) => some (c :: b, suf)
        | none => none
      else none

/-- The `-ize` candidate of the Oxford rule: `word[:-3] + "ize"`. -/
def izeCandidate (w : List Char) : List Char :=
  w.take (w.length - 3) ++ ['i', 'z', 'e']

/-- The `ll` candidate of the double-l guardrail:
`f"{base}ll{suffix}"`. -/
def dlCandidate (base suf : List Char) : List Char :=
  base ++ 'l' :: 'l' :: suf

/-- One classification per surviving token. -/
inductive Classified where
  | accepted : Classified
  | medicalIssue : List Char → List Char → Classified
  | oxfordIssue : List Char → List Char → Classified
  | typoIssue : List Char → Classified
deriving DecidableEq, Repr

/-- The Oxford `-ise → -ize` rule: fires when the word ends in `ise`,
has length over 4, and the `-ize` candidate is in the Oxford set. -/
def oxfordRule (oxford : List Char → Bool) (w : List Char) : Option Classified :=
  if endsWith w ['i', 's', 'e'] && decide (w.length > 4) then
    if oxford (izeCandidate w) then some (.oxfordIssue w (izeCandidate w))
    else none
  else none

/-- The double-l guardrail: if the pattern matches and the doubled-`l`
candidate is a known word, report the (bare) token; an unknown candidate
means no match, falling through to the generic rule. -/
def doubleLRule (known : List Char → Bool) (w : List Char) : Option Classified :=
  match dlScan w with
  | some (base, suf) =>
    if known (dlCandidate base suf) then some (.typoIssue w) else none
  | none => none

/-- The generic lexicon rule: unknown words are typos unless their
normalized form is an Oxford base word; known words are accepted. -/
def genericRule (oxford known : List Char → Bool) (w : List Char) : Classified :=
  if known w then .accepted
  else if oxford (normalize_word oxford w) then .accepted
  else .typoIssue w

/-- The per-token classification chain of the `check_pdf` loop body:
ignorability filter, then medical map, then Oxford rule, then double-l
guardrail, then the generic lexicon rule. -/
def classify (oxford abbrevs known : List Char → Bool)
    (med : List Char → Option (List Char)) (w : List Char) : Classified :=
  if is_ignorable_token abbrevs w then .accepted
  else
    match med w with
    | some brit => .medicalIssue w brit
    | none =>
      match oxfordRule oxford w with
      | some c => c
      | none =>
        match doubleLRule known w with
        | some c => c
        | none => genericRule oxford known w

/-- The three report collections plus the seen-set used to deduplicate
typo reports. -/
structure CheckResult where
  oxfordIssues : List (List Char × List Char)
  medicalIssues : List (List Char × List Char)
  typoIssues : List (List Char)
  seenTypos : List (List Char)
deriving DecidableEq, Repr

/-- Empty accumulators, as at the top of the `check_pdf` loop. -/
def initResult : CheckResult := ⟨[], [], [], []⟩

/-- Process one token: append its classification to the matching
collection; typo reports are appended only when unseen. -/
def stepWord (oxford abbrevs known : List Char → Bool)
    (med : List Char → Option (List Char)) (s : CheckResult)
    (w : List Char) : CheckResult :=
  match classify oxford abbrevs known med w with
  | .accepted => s
  | .medicalIssue a b => { s with medicalIssues := s.medicalIssues ++ [(a, b)] }
  | .oxfordIssue a b => { s with oxfordIssues := s.oxfordIssues ++ [(a, b)] }
  | .typoIssue x =>
    if x ∈ s.seenTypos then s
    else { s with typoIssues := s.typoIssues ++ [x],
                  seenTypos := s.seenTypos ++ [x] }

/-- The `check_pdf` token loop over an already-extracted token list. -/
def check_words (oxford abbrevs known : List Char → Bool)
    (med : List Char → Option (List Char))
    (words : List (List Char)) : CheckResult :=
  words.foldl (stepWord oxford abbrevs known med) initResult

/-- `check_pdf` from extracted page text onward: ligature
normalization, tokenization, then the classification loop.  The
external `SpellChecker` dictionary is the abstract `known` predicate. -/
def check_pdf (oxford abbrevs known : List Char → Bool)
    (med : List Char → Option (List Char)) (text : List Char) : CheckResult :=
  check_words oxford abbrevs known med (pyTokenize (normalize_ligatures text))

/-- Parse one line of the medical-correction table in the spec's terms:
a stripped line of exactly two whitespace-separated tokens yields the
lowercased pair, anything else yields nothing. -/
def parseMedLine (line : List Char) : Option (List Char × List Char) :=
  match pySplit (pyStrip line) with
  | [american, british] => some (american.map pyLower, british.map pyLower)
  | _ => none

/-- Insert one parsed pair into the table, overwriting the key. -/
def medInsert (d : List Char → Option (List Char))
    (p : List Char × List Char) : List Char → Option (List Char) :=
  fun k => if k = p.1 then some p.2 else d k

/-! ### Word Normalizer: the suffix loop as a first-full-match search -/

/-- The full firing condition of one iteration of the `normalize_word`
loop: the word ends with the suffix, the length guard holds, and the
stripped base is in the Oxford set. -/
def nwFires (oxford : List Char → Bool) (w suf : List Char) : Bool :=
  endsWith w suf && decide (w.length > suf.length + 2) && oxford (stripSuffix w suf)

lemma normalizeGo_eq_find (oxford : List Char → Bool) (w : List Char) :
    ∀ ss : List (List Char),
      normalizeGo oxford w ss =
        match ss.find? (nwFires oxford w) with
        | some suf => stripSuffix w suf
        | none => w := by
  intro ss
  induction ss with
  | nil => simp [normalizeGo]
  | cons suf rest ih =>
    have hgo : normalizeGo oxford w (suf :: rest) =
        if endsWith w suf && decide (w.length > suf.length + 2) then
          if oxford (stripSuffix w suf) then stripSuffix w suf
          else normalizeGo oxford w rest
        else normalizeGo oxford w rest := rfl
    cases hmatch : (endsWith w suf && decide (w.length > suf.length + 2)) with
    | false =>
      have hf : nwFires oxford w suf = false := by simp [nwFires, hmatch]
      rw [hgo, if_neg (by simp [hmatch]), ih, List.find?_cons_of_neg _ (by simp [hf])]
    | true =>
      cases hox : oxford (stripSuffix w suf) with
      | true =>
        have hf : nwFires oxford w suf = true := by simp [nwFires, hmatch, hox]
        rw [hgo, if_pos hmatch, if_pos hox, List.find?_cons_of_pos _ hf]
      | false =>
        have hf : nwFires oxford w suf = false := by simp [nwFires, hmatch, hox]
        rw [hgo, if_pos hmatch, if_neg (by simp [hox]), ih,
          List.find?_cons_of_neg _ (by simp [hf])]

/-- C1 (counterexample): take `OxfordBaseSet = set of the single word
"randomize"` and the token `"randomized"`.  The first suffix in
`["ed", "d", "ing", "es", "s"]` that the token ends with (passing the
length guard) is `"ed"`, and its stripped base `"randomiz"` is not in
the set — so the claim predicts the unchanged token `"randomized"`.
The code instead goes on to the later suffix `"d"` and returns
`"randomize"`. -/
theorem c1_counterexample :
    (nwSuffixes.find?
        (fun s => endsWith ("randomized".toList) s &&
          decide (("randomized".toList).length > s.length + 2)) =
      some ('e' :: 'd' :: [])) ∧
    ((fun w => w = "randomize".toList)
        (stripSuffix ("randomized".toList) ('e' :: 'd' :: [])) = false) ∧
    normalize_word (fun w => decide (w = "randomize".toList))
        ("randomized".toList) = "randomize".toList ∧
    normalize_word (fun w => decide (w = "randomize".toList))
        ("randomized".toList) ≠ "randomized".toList := by
  refine ⟨by decide, by decide, by decide, by decide⟩

/-- C1 (amended): `normalize_word` does not stop at the first suffix
that merely matches; it scans the ordered suffix list and returns the
stripped base for the first suffix whose three conditions all hold
(ends-with, length guard, base in OxfordBaseSet), returning the token
unchanged only when no suffix fully qualifies. -/
theorem c1_normalize_word_first_full_match
    (oxford : List Char → Bool) (w : List Char) :
    normalize_word oxford w =
      match nwSuffixes.find? (nwFires oxford w) with
      | some suf => stripSuffix w suf
      | none => w := by
  simpa [normalize_word] using normalizeGo_eq_find oxford w nwSuffixes

/-! ### C3: medical rule precedence -/

/-- C3: a token that passes the ignorability filter and is a key of
MedicalCorrectionMap is always classified as a MedicalCorrection with
the mapped value — no later rule (Oxford, double-l, generic) is ever
consulted — and running the pipeline on that token emits exactly that
pair into the MedicalCorrections collection. -/
theorem c3_medical_precedence
    (oxford abbrevs known : List Char → Bool)
    (med : List Char → Option (List Char)) (w v : List Char)
    (hig : is_ignorable_token abbrevs w = false)
    (hmed : med w = some v) :
    classify oxford abbrevs known med w = .medicalIssue w v ∧
    (check_words oxford abbrevs known med [w]).medicalIssues = [(w, v)] := by
  have hc : classify oxford abbrevs known med w = .medicalIssue w v := by
    simp [classify, hig, hmed]
  refine ⟨hc, ?_⟩
  simp [check_words, stepWord, hc, initResult]

/-- C3 witness: the spec's own scenario, token `"anemia"` mapped to
`"anaemia"`. -/
theorem c3_witness :
    classify (fun _ => false) (fun _ => false) (fun _ => false)
        (fun w => if w = "anemia".toList then some ("anaemia".toList) else none)
        ("anemia".toList) =
      .medicalIssue ("anemia".toList) ("anaemia".toList) ∧
    (check_words (fun _ => false) (fun _ => false) (fun _ => false)
        (fun w => if w = "anemia".toList then some ("anaemia".toList) else none)
        ["anemia".toList]).medicalIssues =
      [("anemia".toList, "anaemia".toList)] :=
  c3_medical_precedence (fun _ => false) (fun _ => false) (fun _ => false)
    (fun w => if w = "anemia".toList then some ("anaemia".toList) else none)
    ("anemia".toList) ("anaemia".toList) (by decide) (by decide)

/-! ### C9: medical table loading -/

lemma load_medical_aux (lines : List (List Char)) :
    ∀ d : List Char → Option (List Char),
      lines.foldl
          (fun d line =>
            match pySplit (pyStrip line) with
            | [american, british] =>
              fun k =>
                if k = american.map pyLower then some (british.map pyLower)
                else d k
            | _ => d) d =
        (lines.filterMap parseMedLine).foldl medInsert d := by
  induction lines with
  | nil => intro d; simp
  | cons line rest ih =>
    intro d
    rcases h : pySplit (pyStrip line) with _ | ⟨a, _ | ⟨b, _ | ⟨c, t⟩⟩⟩
    all_goals
      simp only [List.foldl_cons, List.filterMap_cons, parseMedLine, h, ih]
    rfl

/-- C9: `load_medical_corrections` builds its table from exactly the
lines whose stripped form splits into exactly two whitespace-separated
tokens, mapping the lowercased American spelling to the lowercased
British one; every line with any other token count contributes nothing
to the table (it is skipped, and the total model never raises). -/
theorem c9_loader_wellformed_lines (lines : List (List Char)) :
    load_medical_corrections lines =
      (lines.filterMap parseMedLine).foldl medInsert (fun _ => none) := by
  simpa [load_medical_corrections] using
    load_medical_aux lines (fun _ => none)

/-! ### Shape lemmas for the classification rules -/

lemma oxfordRule_some {oxford : List Char → Bool} {w : List Char}
    {c : Classified} (h : oxfordRule oxford w = some c) :
    c = .oxfordIssue w (izeCandidate w) := by
  unfold oxfordRule at h
  split at h
  · split at h
    · exact (Option.some.injEq _ _ ▸ h).symm ▸ rfl
    · exact absurd h (by simp)
  · exact absurd h (by simp)

lemma doubleLRule_some {known : List Char → Bool} {w : List Char}
    {c : Classified} (h : doubleLRule known w = some c) :
    c = .typoIssue w := by
  unfold doubleLRule at h
  split at h
  · split at h
    · exact (Option.some.injEq _ _ ▸ h).symm ▸ rfl
    · exact absurd h (by simp)
  · exact absurd h (by simp)

lemma genericRule_shape (oxford known : List Char → Bool) (w : List Char) :
    genericRule oxford known w = .accepted ∨
    genericRule oxford known w = .typoIssue w := by
  unfold genericRule
  split
  · exact Or.inl rfl
  · split
    · exact Or.inl rfl
    · exact Or.inr rfl

/-- Every non-accepted classification carries the classified token
itself as its reported word. -/
lemma classify_shape (oxford abbrevs known : List Char → Bool)
    (med : List Char → Option (List Char)) (w : List Char) :
    classify oxford abbrevs known med w = .accepted ∨
    (∃ v, med w = some v ∧
      classify oxford abbrevs known med w = .medicalIssue w v) ∨
    classify oxford abbrevs known med w = .oxfordIssue w (izeCandidate w) ∨
    classify oxford abbrevs known med w = .typoIssue w := by
  unfold classify
  split
  · exact Or.inl rfl
  · cases hmed : med w with
    | some v => exact Or.inr (Or.inl ⟨v, rfl, rfl⟩)
    | none =>
      cases hox : oxfordRule oxford w with
      | some c =>
        simp only
        exact Or.inr (Or.inr (Or.inl (oxfordRule_some hox)))
      | none =>
        cases hdl : doubleLRule known w with
        | some c =>
          simp only
          exact Or.inr (Or.inr (Or.inr (doubleLRule_some hdl)))
        | none =>
          simp only
          rcases genericRule_shape oxford known w with h | h
          · exact Or.inl h
          · exact Or.inr (Or.inr (Or.inr h))

/-! ### Aggregation lemmas -/

/-- One token's contribution to the MedicalCorrections collection. -/
lemma stepWord_medical (oxford abbrevs known : List Char → Bool)
    (med : List Char → Option (List Char)) (s : CheckResult) (w : List Char) :
    (stepWord oxford abbrevs known med s w).medicalIssues =
      s.medicalIssues ++
        (if !is_ignorable_token abbrevs w && (med w).isSome
          then [(w, (med w).getD [])] else []) := by
  cases hig : is_ignorable_token abbrevs w with
  | true =>
    have hc : classify oxford abbrevs known med w = .accepted := by
      simp [classify, hig]
    simp [stepWord, hc, hig]
  | false =>
    cases hmed : med w with
    | some v =>
      have hc : classify oxford abbrevs known med w = .medicalIssue w v := by
        simp [classify, hig, hmed]
      simp [stepWord, hc, hig, hmed]
    | none =>
      rcases classify_shape oxford abbrevs known med w with hc | ⟨v, hv, _⟩ | hc | hc
      · simp [stepWord, hc, hig, hmed]
      · rw [hmed] at hv; cases hv
      · simp [stepWord, hc, hig, hmed]
      · simp only [stepWord, hc]
        split <;> simp [hmed]

/-- One token's contribution to the OxfordCorrections collection. -/
lemma stepWord_oxford (oxford abbrevs known : List Char → Bool)
    (med : List Char → Option (List Char)) (s : CheckResult) (w : List Char) :
    (stepWord oxford abbrevs known med s w).oxfordIssues =
      s.oxfordIssues ++
        (if !is_ignorable_token abbrevs w && (med w).isNone &&
            (oxfordRule oxford w).isSome
          then [(w, izeCandidate w)] else []) := by
  cases hig : is_ignorable_token abbrevs w with
  | true =>
    have hc : classify oxford abbrevs known med w = .accepted := by
      simp [classify, hig]
    simp [stepWord, hc, hig]
  | false =>
    cases hmed : med w with
    | some v =>
      have hc : classify oxford abbrevs known med w = .medicalIssue w v := by
        simp [classify, hig, hmed]
      simp [stepWord, hc, hig, hmed]
    | none =>
      cases hox : oxfordRule oxford w with
      | some c =>
        have hc : classify oxford abbrevs known med w = c := by
          simp [classify, hig, hmed, hox]
        rw [oxfordRule_some hox] at hc
        simp [stepWord, hc, hig, hmed, hox]
      | none =>
        cases hdl : doubleLRule known w with
        | some c =>
          have hc : classify oxford abbrevs known med w = c := by
            simp [classify, hig, hmed, hox, hdl]
          rw [doubleLRule_some hdl] at hc
          simp only [stepWord, hc]
          split <;> simp [hox]
        | none =>
          have hc : classify oxford abbrevs known med w =
              genericRule oxford known w := by
            simp [classify, hig, hmed, hox, hdl]
          rcases genericRule_shape oxford known w with h | h
          · rw [h] at hc; simp [stepWord, hc, hox]
          · rw [h] at hc
            simp only [stepWord, hc]
            split <;> simp [hox]

/-- Typo bookkeeping invariant: the typo list and the seen-set move in
lockstep and stay duplicate-free. -/
lemma stepWord_typoInv (oxford abbrevs known : List Char → Bool)
    (med : List Char → Option (List Char)) (s : CheckResult) (w : List Char)
    (h1 : s.typoIssues = s.seenTypos) (h2 : s.typoIssues.Nodup) :
    (stepWord oxford abbrevs known med s w).typoIssues =
      (stepWord oxford abbrevs known med s w).seenTypos ∧
    (stepWord oxford abbrevs known med s w).typoIssues.Nodup := by
  rcases classify_shape oxford abbrevs known med w with hc | ⟨v, _, hc⟩ | hc | hc
  · simpa [stepWord, hc] using ⟨h1, h2⟩
  · simpa [stepWord, hc] using ⟨h1, h2⟩
  · simpa [stepWord, hc] using ⟨h1, h2⟩
  · simp only [stepWord, hc]
    by_cases hseen : w ∈ s.seenTypos
    · simpa [hseen] using ⟨h1, h2⟩
    · have hnot : w ∉ s.typoIssues := h1 ▸ hseen
      simp only [hseen, if_false]
      refine ⟨by simp [h1], ?_⟩
      simp [List.nodup_append, h2, hnot]

lemma check_aux_typoInv (oxford abbrevs known : List Char → Bool)
    (med : List Char → Option (List Char)) :
    ∀ (words : List (List Char)) (s : CheckResult),
      s.typoIssues = s.seenTypos → s.typoIssues.Nodup →
      (words.foldl (stepWord oxford abbrevs known med) s).typoIssues =
        (words.foldl (stepWord oxford abbrevs known med) s).seenTypos ∧
      (words.foldl (stepWord oxford abbrevs known med) s).typoIssues.Nodup := by
  intro words
  induction words with
  | nil => intro s h1 h2; exact ⟨h1, h2⟩
  | cons w ws ih =>
    intro s h1 h2
    obtain ⟨h1', h2'⟩ := stepWord_typoInv oxford abbrevs known med s w h1 h2
    simpa [List.foldl_cons] using
      ih (stepWord oxford abbrevs known med s w) h1' h2'

lemma check_words_typo_nodup (oxford abbrevs known : List Char → Bool)
    (med : List Char → Option (List Char)) (words : List (List Char)) :
    (check_words oxford abbrevs known med words).typoIssues.Nodup :=
  (check_aux_typoInv oxford abbrevs known med words initResult rfl
    List.nodup_nil).2

lemma nodup_count_le_one {l : List (List Char)} (h : l.Nodup)
    (a : List Char) : l.count a ≤ 1 := by
  induction l with
  | nil => simp
  | cons b t ih =>
    rcases List.nodup_cons.mp h with ⟨hb, ht⟩
    rw [List.count_cons]
    by_cases hba : b = a
    · subst hba
      have hz : t.count b = 0 := List.count_eq_zero.mpr hb
      simp [hz]
    · simp [hba, ih ht]

/-- C5: for any fixed reported string, the SpellingIssues collection
produced by the token loop contains it at most once, whatever the input
token sequence — covering repetitions flagged through the double-l
guardrail, the generic rule, or both. -/
theorem c5_typo_dedup (oxford abbrevs known : List Char → Bool)
    (med : List Char → Option (List Char)) (words : List (List Char))
    (a : List Char) :
    ((check_words oxford abbrevs known med words).typoIssues).count a ≤ 1 :=
  nodup_count_le_one (check_words_typo_nodup oxford abbrevs known med words) a

/-! ### C6: only the typo collection is deduplicated -/

lemma check_aux_medical (oxford abbrevs known : List Char → Bool)
    (med : List Char → Option (List Char)) :
    ∀ (words : List (List Char)) (s : CheckResult),
      (words.foldl (stepWord oxford abbrevs known med) s).medicalIssues =
        s.medicalIssues ++
          (words.filter
              (fun w => !is_ignorable_token abbrevs w && (med w).isSome)).map
            (fun w => (w, (med w).getD [])) := by
  intro words
  induction words with
  | nil => intro s; simp
  | cons w ws ih =>
    intro s
    cases hp : (!is_ignorable_token abbrevs w && (med w).isSome) with
    | true =>
      simp [List.foldl_cons, ih, stepWord_medical, hp, List.filter_cons]
    | false =>
      simp [List.foldl_cons, ih, stepWord_medical, hp, List.filter_cons]

lemma check_aux_oxford (oxford abbrevs known : List Char → Bool)
    (med : List Char → Option (List Char)) :
    ∀ (words : List (List Char)) (s : CheckResult),
      (words.foldl (stepWord oxford abbrevs known med) s).oxfordIssues =
        s.oxfordIssues ++
          (words.filter
              (fun w => !is_ignorable_token abbrevs w && (med w).isNone &&
                (oxfordRule oxford w).isSome)).map
            (fun w => (w, izeCandidate w)) := by
  intro words
  induction words with
  | nil => intro s; simp
  | cons w ws ih =>
    intro s
    cases hp : (!is_ignorable_token abbrevs w && (med w).isNone &&
        (oxfordRule oxford w).isSome) with
    | true =>
      simp [List.foldl_cons, ih, stepWord_oxford, hp, List.filter_cons]
    | false =>
      simp [List.foldl_cons, ih, stepWord_oxford, hp, List.filter_cons]

/-- C6 (counterexample): with `MedicalCorrectionMap = {anemia ↦
anaemia}` and the token `"anemia"` occurring twice, the
MedicalCorrections output contains the pair `(anemia, anaemia)` twice —
so it is not true that every one of the three output collections holds
any given entry at most once. -/
theorem c6_counterexample :
    ((check_words (fun _ => false) (fun _ => false) (fun _ => false)
        (fun w => if w = "anemia".toList then some ("anaemia".toList) else none)
        ["anemia".toList, "anemia".toList]).medicalIssues).count
      ("anemia".toList, "anaemia".toList) = 2 := by
  decide

/-- C6 (amended): only SpellingIssues is deduplicated; the
OxfordCorrections and MedicalCorrections collections receive one entry
per triggering token occurrence, so a token occurring n times
contributes n identical pairs. -/
theorem c6_aggregation (oxford abbrevs known : List Char → Bool)
    (med : List Char → Option (List Char)) (words : List (List Char)) :
    (check_words oxford abbrevs known med words).typoIssues.Nodup ∧
    (check_words oxford abbrevs known med words).medicalIssues =
      (words.filter
          (fun w => !is_ignorable_token abbrevs w && (med w).isSome)).map
        (fun w => (w, (med w).getD [])) ∧
    (check_words oxford abbrevs known med words).oxfordIssues =
      (words.filter
          (fun w => !is_ignorable_token abbrevs w && (med w).isNone &&
            (oxfordRule oxford w).isSome)).map
        (fun w => (w, izeCandidate w)) := by
  refine ⟨check_words_typo_nodup oxford abbrevs known med words, ?_, ?_⟩
  · simpa [check_words, initResult] using
      check_aux_medical oxford abbrevs known med words initResult
  · simpa [check_words, initResult] using
      check_aux_oxford oxford abbrevs known med words initResult

/-! ### C7: the double-l guardrail reports the bare token -/

/-- C7 (counterexample): token `"traveling"`, candidate `"travelling"`
known — the SpellingIssues entry is the bare token `"traveling"`; the
claimed arrow string `"traveling → travelling"` is not in the
collection. -/
theorem c7_counterexample :
    (check_words (fun _ => false) (fun _ => false)
        (fun w => decide (w = "travelling".toList)) (fun _ => none)
        ["traveling".toList]).typoIssues = ["traveling".toList] ∧
    "traveling → travelling".toList ∉
      (check_words (fun _ => false) (fun _ => false)
        (fun w => decide (w = "travelling".toList)) (fun _ => none)
        ["traveling".toList]).typoIssues := by
  refine ⟨by decide, by decide⟩

/-- C7 (amended): when the double-l guardrail fires (pattern match with
the doubled-`l` candidate known), the classification is a SpellingIssue
carrying the bare token, and the entry added to the SpellingIssues
collection is exactly that bare token — not a "token → suggestion"
string (the source comments this: "show only the misspelling (no
arrow)"). -/
theorem c7_doubleL_reports_bare_token
    (oxford abbrevs known : List Char → Bool)
    (med : List Char → Option (List Char)) (w b s : List Char)
    (hig : is_ignorable_token abbrevs w = false)
    (hmed : med w = none)
    (hox : oxfordRule oxford w = none)
    (hdl : dlScan w = some (b, s))
    (hknown : known (dlCandidate b s) = true) :
    classify oxford abbrevs known med w = .typoIssue w ∧
    (check_words oxford abbrevs known med [w]).typoIssues = [w] := by
  have hrule : doubleLRule known w = some (.typoIssue w) := by
    simp [doubleLRule, hdl, hknown]
  have hc : classify oxford abbrevs known med w = .typoIssue w := by
    simp [classify, hig, hmed, hox, hrule]
  refine ⟨hc, ?_⟩
  simp [check_words, stepWord, hc, initResult]

/-- C7 witness: the spec's scenario token `"traveling"` with
`"travelling"` in the Lexicon. -/
theorem c7_witness :
    classify (fun _ => false) (fun _ => false)
        (fun x => decide (x = "travelling".toList)) (fun _ => none)
        ("traveling".toList) = .typoIssue ("traveling".toList) ∧
    (check_words (fun _ => false) (fun _ => false)
        (fun x => decide (x = "travelling".toList)) (fun _ => none)
        ["traveling".toList]).typoIssues = ["traveling".toList] :=
  c7_doubleL_reports_bare_token (fun _ => false) (fun _ => false)
    (fun x => decide (x = "travelling".toList)) (fun _ => none)
    ("traveling".toList) ("trave".toList) ("ing".toList)
    (by decide) (by decide) (by decide) (by decide) (by decide)

/-! ### C4: double-l guardrail soundness and fall-through -/

/-- C4: the double-l guardrail fires only when the doubled-`l`
candidate is a known word.  When the pattern matches but the candidate
is unknown, the guardrail contributes nothing and (for a token that
reached it) classification falls through to the generic lexicon rule. -/
theorem c4_doubleL_unknown_falls_through
    (oxford abbrevs known : List Char → Bool)
    (med : List Char → Option (List Char)) (w b s : List Char)
    (hdl : dlScan w = some (b, s))
    (hknown : known (dlCandidate b s) = false)
    (hig : is_ignorable_token abbrevs w = false)
    (hmed : med w = none)
    (hox : oxfordRule oxford w = none) :
    doubleLRule known w = none ∧
    classify oxford abbrevs known med w = genericRule oxford known w := by
  have hrule : doubleLRule known w = none := by
    simp [doubleLRule, hdl, hknown]
  refine ⟨hrule, ?_⟩
  simp [classify, hig, hmed, hox, hrule]

/-- C4 witness: token `"traveling"` with an empty Lexicon — the
candidate `"travelling"` is unknown, the guardrail does not fire, and
the generic rule flags the token. -/
theorem c4_witness :
    doubleLRule (fun _ => false) ("traveling".toList) = none ∧
    classify (fun _ => false) (fun _ => false) (fun _ => false)
        (fun _ => none) ("traveling".toList) =
      genericRule (fun _ => false) (fun _ => false) ("traveling".toList) :=
  c4_doubleL_unknown_falls_through (fun _ => false) (fun _ => false)
    (fun _ => false) (fun _ => none) ("traveling".toList)
    ("trave".toList) ("ing".toList)
    (by decide) (by decide) (by decide) (by decide) (by decide)

/-! ### C8: ligature normalization is idempotent -/

lemma mem_replaceChar {c lig : Char} {repl t : List Char}
    (h : c ∈ replaceChar lig repl t) : c ∈ repl ∨ (c ∈ t ∧ c ≠ lig) := by
  induction t with
  | nil => simp [replaceChar] at h
  | cons x xs ih =>
    have hx : replaceChar lig repl (x :: xs) =
        (if x = lig then repl else [x]) ++ replaceChar lig repl xs := rfl
    rw [hx, List.mem_append] at h
    rcases h with h | h
    · split at h
      · exact Or.inl h
      · rename_i hne
        rcases List.mem_singleton.mp h with rfl
        exact Or.inr ⟨List.mem_cons_self _ _, hne⟩
    · rcases ih h with h' | ⟨h1, h2⟩
      · exact Or.inl h'
      · exact Or.inr ⟨List.mem_cons_of_mem _ h1, h2⟩

lemma replaceChar_not_mem_self {lig : Char} {repl t : List Char}
    (h : lig ∉ repl) : lig ∉ replaceChar lig repl t := by
  intro hmem
  rcases mem_replaceChar hmem with h' | ⟨_, h2⟩
  · exact h h'
  · exact h2 rfl

lemma replaceChar_not_mem {c lig : Char} {repl t : List Char}
    (h1 : c ∉ repl) (h2 : c ∉ t) : c ∉ replaceChar lig repl t := by
  intro hmem
  rcases mem_replaceChar hmem with h' | ⟨h3, _⟩
  · exact h1 h'
  · exact h2 h3

lemma replaceChar_absent {lig : Char} {repl t : List Char}
    (h : lig ∉ t) : replaceChar lig repl t = t := by
  induction t with
  | nil => rfl
  | cons x xs ih =>
    have hx : replaceChar lig repl (x :: xs) =
        (if x = lig then repl else [x]) ++ replaceChar lig repl xs := rfl
    have hxl : x ≠ lig := fun hxe => h (hxe ▸ List.mem_cons_self _ _)
    rw [hx, if_neg hxl, ih (fun hm => h (List.mem_cons_of_mem _ hm))]
    rfl

/-- After folding a replacement table over a text, a character is gone
whenever it appears in none of the replacements and either was absent
from the start or is one of the table's keys. -/
lemma foldl_replaceChar_not_mem (c : Char) :
    ∀ (ps : List (Char × List Char)) (t : List Char),
      (∀ q ∈ ps, c ∉ q.2) →
      (c ∉ t ∨ ∃ q ∈ ps, q.1 = c) →
      c ∉ ps.foldl (fun acc q => replaceChar q.1 q.2 acc) t := by
  intro ps
  induction ps with
  | nil =>
    intro t _ hstart
    rcases hstart with h | ⟨q, hq, _⟩
    · simpa using h
    · simp at hq
  | cons q rest ih =>
    intro t hrepl hstart
    have hq2 : c ∉ q.2 := hrepl q (List.mem_cons_self _ _)
    have hrepl' : ∀ q' ∈ rest, c ∉ q'.2 :=
      fun q' hq' => hrepl q' (List.mem_cons_of_mem _ hq')
    rw [List.foldl_cons]
    rcases hstart with h | ⟨q', hq', hqc⟩
    · exact ih _ hrepl' (Or.inl (replaceChar_not_mem hq2 h))
    · rcases List.mem_cons.mp hq' with rfl | hq'rest
      · subst hqc
        exact ih _ hrepl' (Or.inl (replaceChar_not_mem_self hq2))
      · exact ih _ hrepl' (Or.inr ⟨q', hq'rest, hqc⟩)

lemma foldl_replaceChar_fixed :
    ∀ (ps : List (Char × List Char)) (t : List Char),
      (∀ q ∈ ps, q.1 ∉ t) →
      ps.foldl (fun acc q => replaceChar q.1 q.2 acc) t = t := by
  intro ps
  induction ps with
  | nil => intro t _; rfl
  | cons q rest ih =>
    intro t habs
    rw [List.foldl_cons,
      replaceChar_absent (habs q (List.mem_cons_self _ _))]
    exact ih t (fun q' hq' => habs q' (List.mem_cons_of_mem _ hq'))

lemma ligature_keys_absent (t : List Char) :
    ∀ q ∈ ligatureMap, q.1 ∉ normalize_ligatures t := by
  intro q hq
  have hrepl : ∀ q' ∈ ligatureMap, q.1 ∉ q'.2 := by
    fin_cases hq <;> decide
  exact foldl_replaceChar_not_mem q.1 ligatureMap t hrepl
    (Or.inr ⟨q, hq, rfl⟩)

/-- C8: the Ligature Normalizer is idempotent — a second pass over
already-expanded text changes nothing, because the first pass removes
every ligature character and the ASCII replacements reintroduce none. -/
theorem c8_ligature_idempotent (t : List Char) :
    normalize_ligatures (normalize_ligatures t) = normalize_ligatures t :=
  foldl_replaceChar_fixed ligatureMap (normalize_ligatures t)
    (ligature_keys_absent t)

/-! ### Structure of double-l matches -/

lemma dlTryEnd_eq {rest suf : List Char} (h : dlTryEnd rest = some suf) :
    suf = rest ∧ (rest ∈ dlSuffixes ∨ rest = []) := by
  unfold dlTryEnd at h
  split at h
  · rename_i hmem
    exact ⟨(Option.some.inj h).symm, Or.inl hmem⟩
  · split at h
    · rename_i hnil
      refine ⟨?_, Or.inr hnil⟩
      rw [hnil]
      exact (Option.some.inj h).symm
    · cases h

lemma dlAfterVowel_shape :
    ∀ {s b suf : List Char}, dlAfterVowel s = some (b, suf) →
      s = b ++ 'l' :: suf ∧ (suf ∈ dlSuffixes ∨ suf = []) := by
  intro s
  induction s with
  | nil => intro b suf h; cases h
  | cons c rest ih =>
    intro b suf h
    have he : dlAfterVowel (c :: rest) =
        if c = 'l' then
          match dlTryEnd rest with
          | some suf => some ([], suf)
          | none =>
            match dlAfterVowel rest with
            | some (b, suf) => some ('l' :: b, suf)
            | none => none
        else if isAsciiLower c then
          match dlAfterVowel rest with
          | some (b, suf) => some (c :: b, suf)
          | none => none
        else none := rfl
    rw [he] at h
    split at h
    · rename_i hc
      subst hc
      cases hend : dlTryEnd rest with
      | some s0 =>
        rw [hend] at h
        obtain ⟨rfl, rfl⟩ : b = [] ∧ suf = s0 := by
          simpa [eq_comm] using Option.some.inj h
        obtain ⟨rfl, hmem⟩ := dlTryEnd_eq hend
        exact ⟨rfl, hmem⟩
      | none =>
        rw [hend] at h
        cases hrec : dlAfterVowel rest with
        | some p =>
          obtain ⟨b0, s0⟩ := p
          rw [hrec] at h
          obtain ⟨rfl, rfl⟩ : b = 'l' :: b0 ∧ suf = s0 := by
            simpa [eq_comm] using Option.some.inj h
          obtain ⟨hw, hmem⟩ := ih hrec
          exact ⟨by rw [hw]; rfl, hmem⟩
        | none => rw [hrec] at h; cases h
    · split at h
      · cases hrec : dlAfterVowel rest with
        | some p =>
          obtain ⟨b0, s0⟩ := p
          rw [hrec] at h
          obtain ⟨rfl, rfl⟩ : b = c :: b0 ∧ suf = s0 := by
            simpa [eq_comm] using Option.some.inj h
          obtain ⟨hw, hmem⟩ := ih hrec
          exact ⟨by rw [hw]; rfl, hmem⟩
        | none => rw [hrec] at h; cases h
      · cases h

lemma dlScan_shape :
    ∀ {w b suf : List Char}, dlScan w = some (b, suf) →
      w = b ++ 'l' :: suf ∧ (suf ∈ dlSuffixes ∨ suf = []) := by
  intro w
  induction w with
  | nil => intro b suf h; cases h
  | cons c rest ih =>
    intro b suf h
    have he : dlScan (c :: rest) =
        if isAsciiLower c then
          match dlScan rest with
          | some (base, suf) => some (c :: base, suf)
          | none =>
            if isVowel c then
              match dlAfterVowel rest with
              | some (b, suf) => some (c :: b, suf)
              | none => none
            else none
        else
          if isVowel c then
            match dlAfterVowel rest with
            | some (b, suf) => some (c :: b, suf)
            | none => none
          else none := rfl
    rw [he] at h
    split at h
    · cases hrec : dlScan rest with
      | some p =>
        obtain ⟨b0, s0⟩ := p
        rw [hrec] at h
        obtain ⟨rfl, rfl⟩ : b = c :: b0 ∧ suf = s0 := by
          simpa [eq_comm] using Option.some.inj h
        obtain ⟨hw, hmem⟩ := ih hrec
        exact ⟨by rw [hw]; rfl, hmem⟩
      | none =>
        rw [hrec] at h
        cases hrec2 : dlAfterVowel rest with
        | some p =>
          obtain ⟨b0, s0⟩ := p
          simp only [hrec2] at h
          split at h
          · obtain ⟨rfl, rfl⟩ : b = c :: b0 ∧ suf = s0 := by
              simpa [eq_comm] using Option.some.inj h
            obtain ⟨hw, hmem⟩ := dlAfterVowel_shape hrec2
            exact ⟨by rw [hw]; rfl, hmem⟩
          · cases h
        | none =>
          simp only [hrec2] at h
          split at h
          · cases h
          · cases h
    · cases hrec2 : dlAfterVowel rest with
      | some p =>
        obtain ⟨b0, s0⟩ := p
        simp only [hrec2] at h
        split at h
        · obtain ⟨rfl, rfl⟩ : b = c :: b0 ∧ suf = s0 := by
            simpa [eq_comm] using Option.some.inj h
          obtain ⟨hw, hmem⟩ := dlAfterVowel_shape hrec2
          exact ⟨by rw [hw]; rfl, hmem⟩
        · cases h
      | none =>
        simp only [hrec2] at h
        split at h
        · cases h
        · cases h

/-! ### Words ending in "ize" trigger neither the Oxford rule nor the
double-l guardrail -/

lemma suffix_singleton_eq {a b : Char} {w : List Char}
    (ha : [a] <:+ w) (hb : [b] <:+ w) : a = b := by
  rcases ha with ⟨t1, h1⟩
  rcases hb with ⟨t2, h2⟩
  rw [← h1] at h2
  have hlen : [b].length = [a].length := rfl
  obtain ⟨-, h⟩ := List.append_inj' h2 hlen
  exact (List.cons.inj h).1.symm

lemma endsWith_iff {w s : List Char} : endsWith w s = true ↔ s <:+ w := by
  unfold endsWith
  exact decide_eq_true_iff

lemma ize_last {w : List Char} (h : endsWith w ['i', 'z', 'e'] = true) :
    ['e'] <:+ w := by
  have hs : ['i', 'z', 'e'] <:+ w := endsWith_iff.mp h
  exact List.IsSuffix.trans ⟨['i', 'z'], rfl⟩ hs

lemma ize_not_ise {w : List Char} (h : endsWith w ['i', 'z', 'e'] = true) :
    endsWith w ['i', 's', 'e'] = false := by
  cases hise : endsWith w ['i', 's', 'e'] with
  | false => rfl
  | true =>
    exfalso
    obtain ⟨t1, h1⟩ := endsWith_iff.mp h
    obtain ⟨t2, h2⟩ := endsWith_iff.mp hise
    rw [← h1] at h2
    obtain ⟨-, h3⟩ := List.append_inj' h2 rfl
    exact absurd (List.cons.inj (List.cons.inj h3).2).1 (by decide)

lemma ize_oxfordRule_none {oxford : List Char → Bool} {w : List Char}
    (h : endsWith w ['i', 'z', 'e'] = true) :
    oxfordRule oxford w = none := by
  unfold oxfordRule
  rw [if_neg]
  simp [ize_not_ise h]

lemma ize_dlScan_none {w : List Char}
    (h : endsWith w ['i', 'z', 'e'] = true) : dlScan w = none := by
  cases hscan : dlScan w with
  | none => rfl
  | some p =>
    exfalso
    obtain ⟨b, suf⟩ := p
    obtain ⟨hw, hmem⟩ := dlScan_shape hscan
    have hlast : ['e'] <:+ w := ize_last h
    rcases hmem with hmem | rfl
    · fin_cases hmem
      · have : ['g'] <:+ w := ⟨b ++ ['l', 'i', 'n'], by rw [hw]; simp⟩
        exact absurd (suffix_singleton_eq hlast this) (by decide)
      · have : ['d'] <:+ w := ⟨b ++ ['l', 'e'], by rw [hw]; simp⟩
        exact absurd (suffix_singleton_eq hlast this) (by decide)
      · have : ['r'] <:+ w := ⟨b ++ ['l', 'e'], by rw [hw]; simp⟩
        exact absurd (suffix_singleton_eq hlast this) (by decide)
      · have : ['s'] <:+ w := ⟨b ++ ['l', 'e', 'r'], by rw [hw]; simp⟩
        exact absurd (suffix_singleton_eq hlast this) (by decide)
      · have : ['y'] <:+ w := ⟨b ++ ['l'], by rw [hw]; simp⟩
        exact absurd (suffix_singleton_eq hlast this) (by decide)
    · have : ['l'] <:+ w := ⟨b, by rw [hw]⟩
      exact absurd (suffix_singleton_eq hlast this) (by decide)

/-! ### C2: Oxford base words are never reported -/

/-- Tokens whose classification is Accepted contribute nothing to any
output collection, and other tokens only ever contribute themselves as
the reported word. -/
lemma accepted_not_emitted (oxford abbrevs known : List Char → Bool)
    (med : List Char → Option (List Char)) {w : List Char}
    (hacc : classify oxford abbrevs known med w = .accepted) :
    ∀ (words : List (List Char)) (s : CheckResult),
      w ∉ s.typoIssues → w ∉ s.medicalIssues.map Prod.fst →
      w ∉ s.oxfordIssues.map Prod.fst →
      w ∉ (words.foldl (stepWord oxford abbrevs known med) s).typoIssues ∧
      w ∉ (words.foldl (stepWord oxford abbrevs known med) s).medicalIssues.map
        Prod.fst ∧
      w ∉ (words.foldl (stepWord oxford abbrevs known med) s).oxfordIssues.map
        Prod.fst := by
  intro words
  induction words with
  | nil => intro s h1 h2 h3; exact ⟨h1, h2, h3⟩
  | cons t ts ih =>
    intro s h1 h2 h3
    rw [List.foldl_cons]
    have htw : t ≠ w ∨ classify oxford abbrevs known med t = .accepted := by
      by_cases he : t = w
      · exact Or.inr (he ▸ hacc)
      · exact Or.inl he
    have hstep :
        w ∉ (stepWord oxford abbrevs known med s t).typoIssues ∧
        w ∉ (stepWord oxford abbrevs known med s t).medicalIssues.map Prod.fst ∧
        w ∉ (stepWord oxford abbrevs known med s t).oxfordIssues.map Prod.fst := by
      rcases classify_shape oxford abbrevs known med t with hc | ⟨v, hv, hc⟩ | hc | hc
      · simp only [stepWord, hc]
        exact ⟨h1, h2, h3⟩
      · have hne : t ≠ w := by
          rcases htw with hne | hacct
          · exact hne
          · rw [hacct] at hc; cases hc
        simp only [stepWord, hc]
        refine ⟨h1, ?_, h3⟩
        intro hmem
        rw [List.map_append, List.mem_append] at hmem
        rcases hmem with hmem | hmem
        · exact h2 hmem
        · exact hne (show w = t by simpa using hmem).symm
      · have hne : t ≠ w := by
          rcases htw with hne | hacct
          · exact hne
          · rw [hacct] at hc; cases hc
        simp only [stepWord, hc]
        refine ⟨h1, h2, ?_⟩
        intro hmem
        rw [List.map_append, List.mem_append] at hmem
        rcases hmem with hmem | hmem
        · exact h3 hmem
        · exact hne (show w = t by simpa using hmem).symm
      · have hne : t ≠ w := by
          rcases htw with hne | hacct
          · exact hne
          · rw [hacct] at hc; cases hc
        simp only [stepWord, hc]
        split
        · exact ⟨h1, h2, h3⟩
        · refine ⟨?_, h2, h3⟩
          intro hmem
          rw [List.mem_append] at hmem
          rcases hmem with hmem | hmem
          · exact h1 hmem
          · exact hne (show w = t by simpa using hmem).symm
    exact ih _ hstep.1 hstep.2.1 hstep.2.2

/-- C2 (counterexample): let `OxfordBaseSet = set of the single word
"organize"` and let `MedicalCorrectionMap` also contain the key
`"organize"` (mapped to `"organise"`).  The token `"organize"` is a
member of OxfordBaseSet, yet the pipeline emits it into the
MedicalCorrections collection — it is not classified Accepted. -/
theorem c2_counterexample :
    ((fun x => decide (x = "organize".toList)) ("organize".toList) = true) ∧
    (check_words (fun x => decide (x = "organize".toList)) (fun _ => false)
        (fun x => decide (x = "organize".toList))
        (fun x => if x = "organize".toList then some ("organise".toList)
          else none)
        ["organize".toList]).medicalIssues =
      [("organize".toList, "organise".toList)] ∧
    "organize".toList ∈
      ((check_words (fun x => decide (x = "organize".toList)) (fun _ => false)
        (fun x => decide (x = "organize".toList))
        (fun x => if x = "organize".toList then some ("organise".toList)
          else none)
        ["organize".toList]).medicalIssues).map Prod.fst := by
  refine ⟨by decide, by decide, by decide⟩

/-- C2 (amended): provided OxfordBaseSet contains only `-ize` base
forms (as the data model specifies), the Lexicon contains every Oxford
base form (as `check_pdf` arranges), and the token is not a key of
MedicalCorrectionMap, every token that is a member of OxfordBaseSet is
classified Accepted and never appears in any of the three output
collections — it is never reported as a correction of itself. -/
theorem c2_oxford_member_accepted
    (oxford abbrevs known : List Char → Bool)
    (med : List Char → Option (List Char))
    (words : List (List Char)) (w : List Char)
    (hize : ∀ x, oxford x = true → endsWith x ['i', 'z', 'e'] = true)
    (hlex : ∀ x, oxford x = true → known x = true)
    (hox : oxford w = true) (hmed : med w = none) :
    classify oxford abbrevs known med w = .accepted ∧
    w ∉ (check_words oxford abbrevs known med words).typoIssues ∧
    w ∉ (check_words oxford abbrevs known med words).medicalIssues.map
      Prod.fst ∧
    w ∉ (check_words oxford abbrevs known med words).oxfordIssues.map
      Prod.fst := by
  have hacc : classify oxford abbrevs known med w = .accepted := by
    cases hig : is_ignorable_token abbrevs w with
    | true => simp [classify, hig]
    | false =>
      have hdl : doubleLRule known w = none := by
        simp [doubleLRule, ize_dlScan_none (hize w hox)]
      simp [classify, hig, hmed, ize_oxfordRule_none (hize w hox), hdl,
        genericRule, hlex w hox]
  refine ⟨hacc, ?_⟩
  exact accepted_not_emitted oxford abbrevs known med hacc words initResult
    (by simp [initResult]) (by simp [initResult]) (by simp [initResult])

/-- C2 witness: `OxfordBaseSet = {organize}`, Lexicon containing it, no
medical key — the token `"organize"` is Accepted and absent from every
output collection of a run containing it. -/
theorem c2_witness :
    classify (fun x => decide (x = "organize".toList)) (fun _ => false)
        (fun x => decide (x = "organize".toList)) (fun _ => none)
        ("organize".toList) = .accepted ∧
    "organize".toList ∉
      (check_words (fun x => decide (x = "organize".toList)) (fun _ => false)
        (fun x => decide (x = "organize".toList)) (fun _ => none)
        ["organize".toList, "helo".toList]).typoIssues ∧
    "organize".toList ∉
      ((check_words (fun x => decide (x = "organize".toList)) (fun _ => false)
        (fun x => decide (x = "organize".toList)) (fun _ => none)
        ["organize".toList, "helo".toList]).medicalIssues).map Prod.fst ∧
    "organize".toList ∉
      ((check_words (fun x => decide (x = "organize".toList)) (fun _ => false)
        (fun x => decide (x = "organize".toList)) (fun _ => none)
        ["organize".toList, "helo".toList]).oxfordIssues).map Prod.fst :=
  c2_oxford_member_accepted
    (fun x => decide (x = "organize".toList)) (fun _ => false)
    (fun x => decide (x = "organize".toList)) (fun _ => none)
    ["organize".toList, "helo".toList] ("organize".toList)
    (fun x hx => by
      have hxe : x = "organize".toList := of_decide_eq_true hx
      subst hxe; decide)
    (fun x hx => hx)
    (by decide) rfl

/-! ### C10: shape of the reported words -/

lemma char_toNat_ofNat {n : Nat} (h : n < 55296) :
    (Char.ofNat n).toNat = n := by
  have hv : n.isValidChar := Or.inl h
  unfold Char.ofNat
  rw [dif_pos hv]
  rfl

lemma pyLower_not_upper (c : Char) : isAsciiUpper (pyLower c) = false := by
  unfold pyLower
  split
  · rename_i h
    have ht : (Char.ofNat (c.toNat + 32)).toNat = c.toNat + 32 :=
      char_toNat_ofNat (by omega)
    simp only [isAsciiUpper, ht, Bool.and_eq_false_iff, decide_eq_false_iff_not]
    omega
  · rename_i h
    simp only [isAsciiUpper, Bool.and_eq_false_iff, decide_eq_false_iff_not]
    omega

lemma splitRuns_chars (p : Char → Bool) :
    ∀ (l acc : List Char), (∀ c ∈ acc, p c = true) →
      ∀ w ∈ splitRuns p acc l, ∀ c ∈ w, p c = true ∧ (c ∈ acc ∨ c ∈ l) := by
  intro l
  induction l with
  | nil =>
    intro acc hacc w hw c hc
    unfold splitRuns at hw
    split at hw
    · cases hw
    · rcases List.mem_singleton.mp hw with rfl
      have hca : c ∈ acc := List.mem_reverse.mp hc
      exact ⟨hacc c hca, Or.inl hca⟩
  | cons c0 rest ih =>
    intro acc hacc w hw c hc
    have he : splitRuns p acc (c0 :: rest) =
        if p c0 then splitRuns p (c0 :: acc) rest
        else if acc.isEmpty then splitRuns p [] rest
        else acc.reverse :: splitRuns p [] rest := rfl
    rw [he] at hw
    split at hw
    · rename_i hp0
      have hacc' : ∀ x ∈ c0 :: acc, p x = true := by
        intro x hx
        rcases List.mem_cons.mp hx with rfl | hx
        · exact hp0
        · exact hacc x hx
      obtain ⟨hpc, hmem⟩ := ih (c0 :: acc) hacc' w hw c hc
      refine ⟨hpc, ?_⟩
      rcases hmem with hmem | hmem
      · rcases List.mem_cons.mp hmem with rfl | hmem
        · exact Or.inr (List.mem_cons_self _ _)
        · exact Or.inl hmem
      · exact Or.inr (List.mem_cons_of_mem _ hmem)
    · split at hw
      · obtain ⟨hpc, hmem⟩ := ih [] (by simp) w hw c hc
        refine ⟨hpc, ?_⟩
        rcases hmem with hmem | hmem
        · cases hmem
        · exact Or.inr (List.mem_cons_of_mem _ hmem)
      · rcases List.mem_cons.mp hw with rfl | hw
        · have hca : c ∈ acc := List.mem_reverse.mp hc
          exact ⟨hacc c hca, Or.inl hca⟩
        · obtain ⟨hpc, hmem⟩ := ih [] (by simp) w hw c hc
          refine ⟨hpc, ?_⟩
          rcases hmem with hmem | hmem
          · cases hmem
          · exact Or.inr (List.mem_cons_of_mem _ hmem)

/-- Every character of every token produced by the tokenizer is a word
character coming from the lowered text — in particular never an ASCII
uppercase letter. -/
lemma pyTokenize_chars (t : List Char) :
    ∀ w ∈ pyTokenize t, ∀ c ∈ w,
      isWordChar c = true ∧ isAsciiUpper c = false := by
  intro w hw c hc
  obtain ⟨hword, hmem⟩ :=
    splitRuns_chars isWordChar (t.map pyLower) [] (by simp) w hw c hc
  refine ⟨hword, ?_⟩
  rcases hmem with hmem | hmem
  · cases hmem
  · obtain ⟨c0, -, rfl⟩ := List.mem_map.mp hmem
    exact pyLower_not_upper c0

lemma ignorable_classify (oxford abbrevs known : List Char → Bool)
    (med : List Char → Option (List Char)) {w : List Char}
    (h : is_ignorable_token abbrevs w = true) :
    classify oxford abbrevs known med w = .accepted := by
  simp [classify, h]

/-- Any word reaching an output collection was one of the processed
tokens and passed the ignorability filter. -/
lemma emitted_sound (oxford abbrevs known : List Char → Bool)
    (med : List Char → Option (List Char)) :
    ∀ (words : List (List Char)) (s : CheckResult) (w : List Char),
      (w ∈ (words.foldl (stepWord oxford abbrevs known med) s).typoIssues ∨
       w ∈ (words.foldl (stepWord oxford abbrevs known med) s).medicalIssues.map
         Prod.fst ∨
       w ∈ (words.foldl (stepWord oxford abbrevs known med) s).oxfordIssues.map
         Prod.fst) →
      (w ∈ s.typoIssues ∨ w ∈ s.medicalIssues.map Prod.fst ∨
        w ∈ s.oxfordIssues.map Prod.fst) ∨
      (w ∈ words ∧ is_ignorable_token abbrevs w = false) := by
  intro words
  induction words with
  | nil => intro s w hmem; exact Or.inl hmem
  | cons t ts ih =>
    intro s w hmem
    rw [List.foldl_cons] at hmem
    rcases ih (stepWord oxford abbrevs known med s t) w hmem with hs | ⟨hmem', hig⟩
    · cases hig : is_ignorable_token abbrevs t with
      | true =>
        rw [stepWord, ignorable_classify oxford abbrevs known med hig] at hs
        exact Or.inl hs
      | false =>
        have hout : (w ∈ s.typoIssues ∨ w ∈ s.medicalIssues.map Prod.fst ∨
            w ∈ s.oxfordIssues.map Prod.fst) ∨ w = t := by
          rcases classify_shape oxford abbrevs known med t
            with hc | ⟨v, hv, hc⟩ | hc | hc
          · simp only [stepWord, hc] at hs
            exact Or.inl hs
          · simp only [stepWord, hc] at hs
            rcases hs with hs | hs | hs
            · exact Or.inl (Or.inl hs)
            · rw [List.map_append, List.mem_append] at hs
              rcases hs with hs | hs
              · exact Or.inl (Or.inr (Or.inl hs))
              · exact Or.inr (by simpa using hs)
            · exact Or.inl (Or.inr (Or.inr hs))
          · simp only [stepWord, hc] at hs
            rcases hs with hs | hs | hs
            · exact Or.inl (Or.inl hs)
            · exact Or.inl (Or.inr (Or.inl hs))
            · rw [List.map_append, List.mem_append] at hs
              rcases hs with hs | hs
              · exact Or.inl (Or.inr (Or.inr hs))
              · exact Or.inr (by simpa using hs)
          · simp only [stepWord, hc] at hs
            split at hs
            · exact Or.inl hs
            · rcases hs with hs | hs | hs
              · rw [List.mem_append] at hs
                rcases hs with hs | hs
                · exact Or.inl (Or.inl hs)
                · exact Or.inr (by simpa using hs)
              · exact Or.inl (Or.inr (Or.inl hs))
              · exact Or.inl (Or.inr (Or.inr hs))
        rcases hout with hout | rfl
        · exact Or.inl hout
        · exact Or.inr ⟨List.mem_cons_self _ _, hig⟩
    · exact Or.inr ⟨List.mem_cons_of_mem _ hmem', hig⟩

/-- C10: every word reported in any of the three collections of a
`check_pdf` run — typo token, medical "from" side or Oxford "from"
side — consists only of lowercase ASCII letters, has length at least 3,
and is not an abbreviation: the ignorability filter screens every token
before any rule runs, and tokenization lowercases the text. -/
theorem c10_output_shape (oxford abbrevs known : List Char → Bool)
    (med : List Char → Option (List Char)) (text : List Char) (w : List Char)
    (hmem :
      w ∈ (check_pdf oxford abbrevs known med text).typoIssues ∨
      w ∈ (check_pdf oxford abbrevs known med text).medicalIssues.map
        Prod.fst ∨
      w ∈ (check_pdf oxford abbrevs known med text).oxfordIssues.map
        Prod.fst) :
    (∀ c ∈ w, isAsciiLower c = true) ∧ pyIsAlpha w = true ∧
    3 ≤ w.length ∧ abbrevs w = false := by
  rcases emitted_sound oxford abbrevs known med
      (pyTokenize (normalize_ligatures text)) initResult w hmem
    with hinit | ⟨htok, hig⟩
  · simp [initResult] at hinit
  · have hfilter : (abbrevs w = false ∧ 2 < w.length) ∧ pyIsAlpha w = true := by
      simpa [is_ignorable_token] using hig
    have hlen : 2 < w.length := hfilter.1.2
    refine ⟨?_, hfilter.2, by omega, hfilter.1.1⟩
    intro c hc
    obtain ⟨-, hupper⟩ :=
      pyTokenize_chars (normalize_ligatures text) w htok c hc
    have halpha : isAsciiLower c = true ∨ isAsciiUpper c = true := by
      have := hfilter.2
      unfold pyIsAlpha at this
      rcases Bool.and_eq_true_iff.mp this with ⟨-, hall⟩
      simpa using List.all_eq_true.mp hall c hc
    rcases halpha with h | h
    · exact h
    · rw [hupper] at h; cases h

/-- C10 witness: the text `"helo"` with empty reference sets — the
single token is reported as a typo, and the theorem's conclusions hold
for it. -/
theorem c10_witness :
    (∀ c ∈ "helo".toList, isAsciiLower c = true) ∧
    pyIsAlpha ("helo".toList) = true ∧
    3 ≤ ("helo".toList).length ∧ (fun _ => false) ("helo".toList) = false :=
  c10_output_shape (fun _ => false) (fun _ => false) (fun _ => false)
    (fun _ => none) ("helo".toList) ("helo".toList) (Or.inl (by decide))

end OxfordSpell
